import Mathlib

/-!
Verification of the ISS-Horizon visibility-prediction core.

This file gives a shallow embedding of the algorithmic core of the
repository (span extraction, visibility predicate, window assembly,
visibility scoring, pass sampling, compass mapping, orchestration, and
TLE acquisition with its fallback chain) and proves the specified
properties about it.

Modelling conventions: degrees are rationals, timestamps are integer
seconds (converting a timestamp to the observer timezone does not change
the instant, so it is the identity on instants), and the network is an
explicit oracle mapping a URL to an outcome.  Fallible code returns
Except values.
-/

/-! ## utils.py -/

def labels4 : List String := ["N", "E", "S", "W"]

def labels8 : List String := ["N", "NE", "E", "SE", "S", "SW", "W", "NW"]

def labels16 : List String :=
  ["N", "NNE", "NE", "ENE", "E", "ESE", "SE", "SSE",
   "S", "SSW", "SW", "WSW", "W", "WNW", "NW", "NNW"]

/-- The labels table of az_to_cardinal: the Python dict lookup
labels_map.get(points) keyed by the supported resolutions. -/
def compassLabels (points : Nat) : Option (List String) :=
  if points = 4 then some labels4
  else if points = 8 then some labels8
  else if points = 16 then some labels16
  else none

inductive ConfigError where
  | unsupportedPoints : ConfigError
deriving DecidableEq

/-- az_to_cardinal from utils.py.  Python float modulo for a positive
divisor is az - 360 * floor(az / 360), float floor-division is the real
floor, and int() of the resulting non-negative value is exact, so the
translation below is the exact real-number semantics of the source. -/
def az_to_cardinal (az_deg : ℚ) (points : Nat) : Except ConfigError String :=
  match compassLabels points with
  | none => Except.error ConfigError.unsupportedPoints
  | some labels =>
    let normalized : ℚ := az_deg - 360 * (⌊az_deg / 360⌋ : ℤ)
    let bucket_size : ℚ := 360 / points
    let index : Nat := (⌊(normalized + bucket_size / 2) / bucket_size⌋).toNat % points
    Except.ok (labels.getD index "")

/-- az_to_cardinal at the default resolution points = 16, as used by the
window assembler; 16 is a supported resolution so the error case is
unreachable. -/
def az_to_cardinal16 (az_deg : ℚ) : String :=
  match az_to_cardinal az_deg 16 with
  | Except.ok label => label
  | Except.error _ => ""

/-- The loop body of contiguous_true_spans: spans accumulates the closed
spans in order, start is the pending open-span marker, index the position
of the next element of the remaining list. -/
def ctsGo (spans : List (Nat × Nat)) (start : Option Nat) (index : Nat) :
    List Bool → List (Nat × Nat) × Option Nat
  | [] => (spans, start)
  | value :: rest =>
    match start, value with
    | none, true => ctsGo spans (some index) (index + 1) rest
    | some s, false => ctsGo (spans ++ [(s, index - 1)]) none (index + 1) rest
    | none, false => ctsGo spans none (index + 1) rest
    | some s, true => ctsGo spans (some s) (index + 1) rest

/-- contiguous_true_spans from utils.py: the loop over the enumerated
mask followed by closing a span left open at the end of the sequence. -/
def contiguous_true_spans (mask : List Bool) : List (Nat × Nat) :=
  match ctsGo [] none 0 mask with
  | (spans, some s) => spans ++ [(s, mask.length - 1)]
  | (spans, none) => spans

/-- visibility_stars from utils.py. -/
def Utils.visibility_stars (peak_elevation_deg : ℚ) (duration_seconds : ℚ) : ℤ :=
  let score : ℤ := 1
  let score := if 20 ≤ peak_elevation_deg then score + 1 else score
  let score := if 40 ≤ peak_elevation_deg then score + 1 else score
  let score := if 65 ≤ peak_elevation_deg then score + 1 else score
  let score := if 120 ≤ duration_seconds then score + 1 else score
  max 1 (min score 5)

/-! ## tle.py -/

structure TLE where
  name : String
  line1 : String
  line2 : String
deriving DecidableEq

inductive TLEError where
  | notFound (name url : String) : TLEError
  | fetchFailed (url : String) : TLEError
deriving DecidableEq

/-- Outcome of one requests.get plus raise_for_status against a URL.
A fetched document is represented by its list of lines (splitlines).
httpError carries the optional status code of requests.HTTPError;
transportError stands for any other requests.RequestException. -/
inductive FetchOutcome where
  | success (lines : List String) : FetchOutcome
  | httpError (status : Option Nat) : FetchOutcome
  | transportError : FetchOutcome

def FALLBACK_STATIONS_URL : String := "https://celestrak.org/NORAD/elements/stations.txt"

def FALLBACK_GP_URL : String :=
  "https://celestrak.org/NORAD/elements/gp.php?GROUP=stations&FORMAT=tle"

def BUNDLED_ISS_TLE : TLE :=
  { name := "ISS (ZARYA)"
    line1 := "1 25544U 98067A   26051.50000000  .00010000  00000+0  18277-3 0  9991"
    line2 := "2 25544  51.6417 200.0000 0005825 100.0000 300.0000 15.50000000000000" }

/-- Python str.lower() (character-wise lowering; TLE data is ASCII). -/
def strLower (s : String) : String := String.mk (s.data.map Char.toLower)

/-- Python str.strip(): drop whitespace from both ends. -/
def strTrim (s : String) : String :=
  String.mk (((s.data.dropWhile Char.isWhitespace).reverse.dropWhile
    Char.isWhitespace).reverse)

/-- Python str.startswith(pre). -/
def strStartsWith (s pre : String) : Bool := pre.data.isPrefixOf s.data

/-- The triple scan of _parse_tle: Python iterates index over
range(0, len(lines) - 2) and inspects lines[index .. index+2], first
match wins; sliding the window by one is the same as recursing on the
tail. -/
def findTLERecord (target : String) : List String → Option TLE
  | satName :: l1 :: l2 :: rest =>
    if strLower satName = target ∧ strStartsWith l1 "1 " ∧ strStartsWith l2 "2 " then
      some { name := satName, line1 := l1, line2 := l2 }
    else
      findTLERecord target (l1 :: l2 :: rest)
  | _ => none

/-- _parse_tle from tle.py: strip the lines, drop blank ones, scan for a
3-line record whose name matches case-insensitively. -/
def parse_tle (name : String) (textLines : List String) (source_url : String) :
    Except TLEError TLE :=
  let lines := (textLines.map strTrim).filter (fun l => l ≠ "")
  let target := strLower (strTrim name)
  match findTLERecord target lines with
  | some tle => Except.ok tle
  | none => Except.error (TLEError.notFound name source_url)

/-- _bundled_tle from tle.py. -/
def bundled_tle (name : String) : Option TLE :=
  if strLower (strTrim name) = strLower BUNDLED_ISS_TLE.name then some BUNDLED_ISS_TLE
  else none

/-- Result of one fetch_tle call: the returned value or raised error, the
ordered list of URLs actually fetched, and the cache after the call. -/
structure FetchTLEResult where
  result : Except TLEError TLE
  fetched : List String
  cache' : List ((String × String) × TLE)

/-- fetch_tle from tle.py over an explicit network oracle and cache.
The branch structure mirrors the source: cache hit; successful fetch and
parse; requests.HTTPError with the 403-from-stations-URL retry against
the gp URL (whose own requests failures fall back to the bundled TLE when
the name matches, a parse failure propagating); any other fetch failure
falling back to the bundled TLE when the name matches and surfacing a
fetch error otherwise. -/
def fetch_tle (net : String → FetchOutcome) (cache : List ((String × String) × TLE))
    (name url : String) : FetchTLEResult :=
  match cache.lookup (name, url) with
  | some tle => { result := Except.ok tle, fetched := [], cache' := cache }
  | none =>
    match net url with
    | FetchOutcome.success textLines =>
      match parse_tle name textLines url with
      | Except.ok tle =>
        { result := Except.ok tle, fetched := [url], cache' := ((name, url), tle) :: cache }
      | Except.error e =>
        { result := Except.error e, fetched := [url], cache' := cache }
    | FetchOutcome.httpError status =>
      if status = some 403 ∧ url = FALLBACK_STATIONS_URL then
        match net FALLBACK_GP_URL with
        | FetchOutcome.success textLines =>
          match parse_tle name textLines FALLBACK_GP_URL with
          | Except.ok tle =>
            { result := Except.ok tle, fetched := [url, FALLBACK_GP_URL],
              cache' := ((name, url), tle) :: cache }
          | Except.error e =>
            { result := Except.error e, fetched := [url, FALLBACK_GP_URL], cache' := cache }
        | _ =>
          match bundled_tle name with
          | some tle =>
            { result := Except.ok tle, fetched := [url, FALLBACK_GP_URL],
              cache' := ((name, url), tle) :: cache }
          | none =>
            { result := Except.error (TLEError.fetchFailed FALLBACK_GP_URL),
              fetched := [url, FALLBACK_GP_URL], cache' := cache }
      else
        match bundled_tle name with
        | some tle =>
          { result := Except.ok tle, fetched := [url],
            cache' := ((name, url), tle) :: cache }
        | none =>
          { result := Except.error (TLEError.fetchFailed url), fetched := [url],
            cache' := cache }
    | FetchOutcome.transportError =>
      match bundled_tle name with
      | some tle =>
        { result := Except.ok tle, fetched := [url],
          cache' := ((name, url), tle) :: cache }
      | none =>
        { result := Except.error (TLEError.fetchFailed url), fetched := [url],
          cache' := cache }

/-! ## predictor.py -/

/-- The configuration fields of Config consumed by the prediction core
(config.py): degrees as rationals, second counts as integers. -/
structure Config where
  min_elev_deg : ℚ
  twilight_deg : ℚ
  sample_seconds : ℤ
  min_window_seconds : ℤ

inductive PredictionError where
  | sizeMismatch : PredictionError
  | nonPositiveHours : PredictionError
deriving DecidableEq

/-- VisibilityWindow from models.py.  Timestamps are instants in integer
seconds; converting to the observer timezone preserves the instant, so
local timestamps equal their UTC counterparts here. -/
structure VisibilityWindow where
  start_local : ℤ
  end_local : ℤ
  peak_local : ℤ
  duration : ℤ
  peak_elevation_deg : ℚ
  start_azimuth_deg : ℚ
  peak_azimuth_deg : ℚ
  end_azimuth_deg : ℚ
  start_direction : String
  peak_direction : String
  end_direction : String
  visibility_stars : ℤ
deriving DecidableEq

/-- ISSPredictor._visibility_stars from predictor.py (the staticmethod
copy of the scorer). -/
def Predictor.visibility_stars (peak_elevation_deg : ℚ) (duration_seconds : ℚ) : ℤ :=
  let score : ℤ := 1
  let score := if 20 ≤ peak_elevation_deg then score + 1 else score
  let score := if 40 ≤ peak_elevation_deg then score + 1 else score
  let score := if 65 ≤ peak_elevation_deg then score + 1 else score
  let score := if 120 ≤ duration_seconds then score + 1 else score
  max 1 (min score 5)

/-- The visibility mask comprehension of _windows_from_samples:
entry i is true when the satellite is above the configured horizon, the
sun is at or below the twilight threshold, and the satellite is sunlit. -/
def visMask (cfg : Config) (iss_alt_deg sun_alt_deg : List ℚ) (iss_sunlit : List Bool)
    (n : Nat) : List Bool :=
  (List.range n).map fun i =>
    decide (cfg.min_elev_deg ≤ iss_alt_deg.getD i 0) &&
      decide (sun_alt_deg.getD i 0 ≤ cfg.twilight_deg) && iss_sunlit.getD i false

/-- Python max(range(s, e + 1), key = f) for s ≤ e: fold over the
indices keeping the current best, replacing it only on a strictly
greater key, so the first index achieving the maximum wins. -/
def pyMaxRange (f : Nat → ℚ) (s e : Nat) : Nat :=
  (List.range' (s + 1) (e - s)).foldl (fun best i => if f best < f i then i else best) s

/-- The per-span body of the window-construction loop of
_windows_from_samples: discard the span when its duration is below the
configured minimum, otherwise build the immutable window record. -/
def spanWindow (cfg : Config) (sample_times_utc : List ℤ) (iss_alt_deg iss_az_deg : List ℚ)
    (span : Nat × Nat) : Option VisibilityWindow :=
  let start_utc := sample_times_utc.getD span.1 0
  let end_utc := sample_times_utc.getD span.2 0
  let duration := end_utc - start_utc
  if duration < cfg.min_window_seconds then none
  else
    let peak_idx := pyMaxRange (fun idx => iss_alt_deg.getD idx 0) span.1 span.2
    let start_az := iss_az_deg.getD span.1 0
    let peak_az := iss_az_deg.getD peak_idx 0
    let end_az := iss_az_deg.getD span.2 0
    some
      { start_local := start_utc
        end_local := end_utc
        peak_local := sample_times_utc.getD peak_idx 0
        duration := duration
        peak_elevation_deg := iss_alt_deg.getD peak_idx 0
        start_azimuth_deg := start_az
        peak_azimuth_deg := peak_az
        end_azimuth_deg := end_az
        start_direction := az_to_cardinal16 start_az
        peak_direction := az_to_cardinal16 peak_az
        end_direction := az_to_cardinal16 end_az
        visibility_stars :=
          Predictor.visibility_stars (iss_alt_deg.getD peak_idx 0) (duration : ℚ) }

/-- ISSPredictor._windows_from_samples from predictor.py: the length
check over the five parallel arrays, the visibility mask, and the
span-to-window loop (a for loop with continue is filterMap over the
extracted spans). -/
def windows_from_samples (cfg : Config) (sample_times_utc : List ℤ)
    (iss_alt_deg iss_az_deg sun_alt_deg : List ℚ) (iss_sunlit : List Bool) :
    Except PredictionError (List VisibilityWindow) :=
  let n := sample_times_utc.length
  if ¬ (n = iss_alt_deg.length ∧ n = iss_az_deg.length ∧ n = sun_alt_deg.length ∧
      n = iss_sunlit.length) then
    Except.error PredictionError.sizeMismatch
  else if n = 0 then Except.ok []
  else
    Except.ok
      ((contiguous_true_spans (visMask cfg iss_alt_deg sun_alt_deg iss_sunlit n)).filterMap
        (spanWindow cfg sample_times_utc iss_alt_deg iss_az_deg))

/-- The sampling while loop of _predict_pass_windows: append the cursor
and advance by step while the cursor is at or before the set time.  The
step hypothesis reflects sample_seconds being a positive configuration
value and makes the loop terminating. -/
def sampleLoop (set_dt step : ℤ) (hstep : 0 < step) (cursor : ℤ) : List ℤ :=
  if cursor ≤ set_dt then cursor :: sampleLoop set_dt step hstep (cursor + step) else []
termination_by (set_dt + step - cursor).toNat
decreasing_by omega

/-- The pass sampler of _predict_pass_windows: fixed-step samples from
the rise time, then the set time appended when the last sample does not
land exactly on it.  (For rise_dt ≤ set_dt the loop output is nonempty;
Python would raise an IndexError on the empty case.) -/
def pass_samples (rise_dt set_dt step : ℤ) (hstep : 0 < step) : List ℤ :=
  let samples_utc := sampleLoop set_dt step hstep rise_dt
  if samples_utc.getLast? = some set_dt then samples_utc else samples_utc ++ [set_dt]

/-- The event loop of visible_windows_between: event kind 0 is a rise
(remember it), kind 2 a set (emit the windows of the pass when a rise is
pending, then clear it), kind 1 a culmination (ignored).  The windows of
one pass are supplied by the oracle pass_windows standing for
_predict_pass_windows. -/
def collectWindows (pass_windows : ℤ → ℤ → List VisibilityWindow) :
    Option ℤ → List (ℤ × Nat) → List VisibilityWindow
  | _, [] => []
  | rise_time, (event_time, event_type) :: rest =>
    if event_type = 0 then collectWindows pass_windows (some event_time) rest
    else if event_type = 2 then
      match rise_time with
      | some rise => pass_windows rise event_time ++ collectWindows pass_windows none rest
      | none => collectWindows pass_windows none rest
    else collectWindows pass_windows rise_time rest

/-- Specification companion of the event loop: the matched (rise, set)
pairs in event order; a rise not followed by a set is dropped. -/
def matchedPairs : Option ℤ → List (ℤ × Nat) → List (ℤ × ℤ)
  | _, [] => []
  | rise_time, (event_time, event_type) :: rest =>
    if event_type = 0 then matchedPairs (some event_time) rest
    else if event_type = 2 then
      match rise_time with
      | some rise => (rise, event_time) :: matchedPairs none rest
      | none => matchedPairs none rest
    else matchedPairs rise_time rest

/-- ISSPredictor.visible_windows_between from predictor.py, for a
non-empty range, over the event sequence returned by the propagation
service: run the rise/set pairing loop and sort the accumulated windows
by start timestamp (Python sorted with a key is a stable merge sort). -/
def visible_windows_between (pass_windows : ℤ → ℤ → List VisibilityWindow)
    (events : List (ℤ × Nat)) : List VisibilityWindow :=
  (collectWindows pass_windows none events).mergeSort
    (fun a b => decide (a.start_local ≤ b.start_local))

/-! ## Specification predicates (statement apparatus only) -/

/-- A maximal contiguous run of true values in mask, written as an
inclusive index span: nonempty, inside the mask, all true, not extendable
to the left or to the right. -/
def IsRun (mask : List Bool) (s e : Nat) : Prop :=
  s ≤ e ∧ e < mask.length ∧
    (∀ j, s ≤ j → j ≤ e → mask.getD j false = true) ∧
    (s = 0 ∨ mask.getD (s - 1) false = false) ∧
    (e + 1 = mask.length ∨ mask.getD (e + 1) false = false)

/-- Loop invariant predicate: a run of l (indexed from offset i) closed
by an explicit false on its right, not touching the left boundary
condition of an open state. -/
def ClosedRun (i : Nat) (l : List Bool) (a b : Nat) : Prop :=
  i ≤ a ∧ a ≤ b ∧ b + 1 - i < l.length ∧
    (∀ j, a ≤ j → j ≤ b → l.getD (j - i) false = true) ∧
    (a = i ∨ l.getD (a - 1 - i) false = false) ∧
    l.getD (b + 1 - i) false = false

/-- Loop invariant predicate: a run of l (indexed from offset i) still
open at the end of l. -/
def TrailRun (i : Nat) (l : List Bool) (r : Nat) : Prop :=
  i ≤ r ∧ r - i < l.length ∧
    (∀ j, r ≤ j → j < i + l.length → l.getD (j - i) false = true) ∧
    (r = i ∨ l.getD (r - 1 - i) false = false)

/-- Loop invariant predicate: position b is the last index before the
first false of l (indexed from offset i); closes the span pending in an
open state. -/
def FirstClose (i : Nat) (l : List Bool) (b : Nat) : Prop :=
  i ≤ b + 1 ∧ b + 1 - i < l.length ∧
    (∀ j, i ≤ j → j ≤ b → l.getD (j - i) false = true) ∧
    l.getD (b + 1 - i) false = false

/-- Every entry of l is true. -/
def AllTrue (l : List Bool) : Prop := ∀ j, j < l.length → l.getD j false = true

/-! ## Helper lemmas -/

theorem indicator_mono (t : ℚ) {a b : ℚ} (h : a ≤ b) :
    (if t ≤ a then (1 : ℤ) else 0) ≤ if t ≤ b then (1 : ℤ) else 0 := by
  split_ifs with h1 h2
  · exact le_rfl
  · exact absurd (h1.trans h) h2
  · norm_num
  · exact le_rfl

theorem sampleLoop_cons {set_dt step : ℤ} (hstep : 0 < step) {c : ℤ} (h : c ≤ set_dt) :
    sampleLoop set_dt step hstep c = c :: sampleLoop set_dt step hstep (c + step) := by
  rw [sampleLoop, if_pos h]

theorem sampleLoop_nil {set_dt step : ℤ} (hstep : 0 < step) {c : ℤ} (h : set_dt < c) :
    sampleLoop set_dt step hstep c = [] := by
  rw [sampleLoop, if_neg (by omega)]

theorem sampleLoop_head? (set_dt step : ℤ) (hstep : 0 < step) (c : ℤ) :
    (sampleLoop set_dt step hstep c).head? = if c ≤ set_dt then some c else none := by
  rw [sampleLoop]
  split <;> rfl

theorem sampleLoop_mem {set_dt step : ℤ} (hstep : 0 < step) :
    ∀ c x, x ∈ sampleLoop set_dt step hstep c → c ≤ x ∧ x ≤ set_dt := by
  intro c
  induction c using sampleLoop.induct set_dt step hstep with
  | case1 c hc ih =>
    intro x hx
    rw [sampleLoop_cons hstep hc] at hx
    rcases List.mem_cons.mp hx with rfl | hx
    · exact ⟨le_rfl, hc⟩
    · have := ih x hx
      omega
  | case2 c hc =>
    intro x hx
    rw [sampleLoop_nil hstep (by omega)] at hx
    simp at hx

theorem sampleLoop_chain {set_dt step : ℤ} (hstep : 0 < step) :
    ∀ c, List.Chain' (fun a b => b = a + step) (sampleLoop set_dt step hstep c) := by
  intro c
  induction c using sampleLoop.induct set_dt step hstep with
  | case1 c hc ih =>
    rw [sampleLoop_cons hstep hc]
    refine List.chain'_cons'.mpr ⟨?_, ih⟩
    intro b hb
    rw [sampleLoop_head? set_dt step hstep (c + step)] at hb
    split at hb
    · exact (Option.mem_some_iff.mp hb).symm
    · exact absurd hb (by simp)
  | case2 c hc =>
    rw [sampleLoop_nil hstep (by omega)]
    exact List.chain'_nil

theorem sampleLoop_sorted {set_dt step : ℤ} (hstep : 0 < step) (c : ℤ) :
    List.Sorted (· ≤ ·) (sampleLoop set_dt step hstep c) := by
  have h : List.Chain' (fun a b => b = a + step) (sampleLoop set_dt step hstep c) :=
    sampleLoop_chain hstep c
  exact List.chain'_iff_pairwise.mp (h.imp fun a b hab => by omega)

theorem collectWindows_eq_flatMap (pw : ℤ → ℤ → List VisibilityWindow) :
    ∀ (events : List (ℤ × Nat)) (rise? : Option ℤ),
      collectWindows pw rise? events =
        (matchedPairs rise? events).flatMap fun p => pw p.1 p.2 := by
  intro events
  induction events with
  | nil => intro rise?; rfl
  | cons ev rest ih =>
    intro rise?
    rcases ev with ⟨t, k⟩
    simp only [collectWindows, matchedPairs]
    split_ifs
    · exact ih (some t)
    · rcases rise? with _ | r
      · exact ih none
      · simp [List.flatMap_cons, ih none]
    · exact ih rise?

theorem collectWindows_trailing_rise (pw : ℤ → ℤ → List VisibilityWindow) :
    ∀ (events : List (ℤ × Nat)) (rise? : Option ℤ) (t : ℤ),
      collectWindows pw rise? (events ++ [(t, 0)]) = collectWindows pw rise? events := by
  intro events
  induction events with
  | nil =>
    intro rise? t
    simp [collectWindows]
  | cons ev rest ih =>
    intro rise? t
    rcases ev with ⟨u, k⟩
    rcases rise? with _ | r
    · simp only [List.cons_append, collectWindows, List.append_eq]
      split_ifs
      · exact ih (some u) t
      · exact ih none t
      · exact ih none t
    · simp only [List.cons_append, collectWindows, List.append_eq]
      split_ifs
      · exact ih (some u) t
      · rw [ih none t]
      · exact ih (some r) t

theorem foldMax_spec (f : Nat → ℚ) :
    ∀ (xs : List Nat) (x : Nat), List.Pairwise (· < ·) (x :: xs) →
      (xs.foldl (fun best i => if f best < f i then i else best) x ∈ x :: xs ∧
        (∀ j ∈ x :: xs,
          f j ≤ f (xs.foldl (fun best i => if f best < f i then i else best) x)) ∧
        (∀ j ∈ x :: xs,
          f (xs.foldl (fun best i => if f best < f i then i else best) x) ≤ f j →
            xs.foldl (fun best i => if f best < f i then i else best) x ≤ j)) := by
  intro xs
  induction xs with
  | nil =>
    intro x _
    simp
  | cons y ys ih =>
    intro x hpair
    have hxy : x < y := (List.pairwise_cons.mp hpair).1 y (by simp)
    have hxz : ∀ z ∈ ys, x < z := fun z hz =>
      (List.pairwise_cons.mp hpair).1 z (by simp [hz])
    have hyys : List.Pairwise (· < ·) (y :: ys) := (List.pairwise_cons.mp hpair).2
    simp only [List.foldl_cons]
    by_cases hf : f x < f y
    · rw [if_pos hf]
      obtain ⟨hmem, hmax, hfirst⟩ := ih y hyys
      refine ⟨List.mem_cons_of_mem x hmem, ?_, ?_⟩
      · intro j hj
        rcases List.mem_cons.mp hj with rfl | hj
        · exact le_of_lt (lt_of_lt_of_le hf (hmax y (by simp)))
        · exact hmax j hj
      · intro j hj hle
        rcases List.mem_cons.mp hj with rfl | hj
        · exact absurd (lt_of_lt_of_le hf (hmax y (by simp))) (not_lt.mpr hle)
        · exact hfirst j hj hle
    · rw [if_neg hf]
      have hxys : List.Pairwise (· < ·) (x :: ys) := by
        rw [List.pairwise_cons]
        exact ⟨hxz, (List.pairwise_cons.mp hyys).2⟩
      obtain ⟨hmem, hmax, hfirst⟩ := ih x hxys
      refine ⟨?_, ?_, ?_⟩
      · rcases List.mem_cons.mp hmem with h | h
        · simp [h]
        · simp [h]
      · intro j hj
        rcases List.mem_cons.mp hj with rfl | hj
        · exact hmax j (by simp)
        rcases List.mem_cons.mp hj with rfl | hj
        · exact le_trans (le_of_not_lt hf) (hmax x (by simp))
        · exact hmax j (by simp [hj])
      · intro j hj hle
        rcases List.mem_cons.mp hj with rfl | hj
        · exact hfirst j (by simp) hle
        rcases List.mem_cons.mp hj with rfl | hj
        · have h1 : f (ys.foldl (fun best i => if f best < f i then i else best) x) ≤ f x :=
            le_trans hle (le_of_not_lt hf)
          exact le_of_lt (lt_of_le_of_lt (hfirst x (by simp) h1) hxy)
        · exact hfirst j (by simp [hj]) hle

theorem pyMaxRange_spec (f : Nat → ℚ) (s e : Nat) (h : s ≤ e) :
    (s ≤ pyMaxRange f s e ∧ pyMaxRange f s e ≤ e) ∧
    (∀ j, s ≤ j → j ≤ e → f j ≤ f (pyMaxRange f s e)) ∧
    (∀ j, s ≤ j → j ≤ e → f (pyMaxRange f s e) ≤ f j → pyMaxRange f s e ≤ j) := by
  have hcons : (s :: List.range' (s + 1) (e - s)) = List.range' s (e - s + 1) := rfl
  have hpair : List.Pairwise (· < ·) (s :: List.range' (s + 1) (e - s)) := by
    rw [hcons]
    exact List.pairwise_lt_range' s (e - s + 1)
  have hmem_iff : ∀ j, j ∈ s :: List.range' (s + 1) (e - s) ↔ (s ≤ j ∧ j ≤ e) := by
    intro j
    rw [hcons, List.mem_range'_1]
    omega
  obtain ⟨hmem, hmax, hfirst⟩ := foldMax_spec f (List.range' (s + 1) (e - s)) s hpair
  refine ⟨?_, ?_, ?_⟩
  · exact (hmem_iff _).mp hmem
  · intro j hjs hje
    exact hmax j ((hmem_iff j).mpr ⟨hjs, hje⟩)
  · intro j hjs hje hle
    exact hfirst j ((hmem_iff j).mpr ⟨hjs, hje⟩) hle

/-! ## Claim theorems -/

/-- Claim C10: the module-level scorer in utils and the staticmethod
scorer in predictor are extensionally equal. -/
theorem scorer_refinement_eq :
    ∀ p d : ℚ, Utils.visibility_stars p d = Predictor.visibility_stars p d :=
  fun _ _ => rfl

/-- Claim C5: the visibility score is 1 plus one point for each of the
thresholds 20, 40 and 65 degrees of peak elevation and 120 seconds of
duration, clamped to the range 1 to 5; it is monotonic non-decreasing in
both arguments, and takes the documented values on the five examples. -/
theorem visibility_scorer_spec :
    (∀ p d : ℚ, Predictor.visibility_stars p d =
      max 1 (min (1 + (if 20 ≤ p then (1 : ℤ) else 0) + (if 40 ≤ p then (1 : ℤ) else 0) +
        (if 65 ≤ p then (1 : ℤ) else 0) + (if 120 ≤ d then (1 : ℤ) else 0)) 5)) ∧
    (∀ p₁ p₂ d₁ d₂ : ℚ, p₁ ≤ p₂ → d₁ ≤ d₂ →
      Predictor.visibility_stars p₁ d₁ ≤ Predictor.visibility_stars p₂ d₂) ∧
    Predictor.visibility_stars 10 30 = 1 ∧ Predictor.visibility_stars 25 30 = 2 ∧
    Predictor.visibility_stars 45 30 = 3 ∧ Predictor.visibility_stars 70 30 = 4 ∧
    Predictor.visibility_stars 70 240 = 5 := by
  have hformula : ∀ p d : ℚ, Predictor.visibility_stars p d =
      max 1 (min (1 + (if 20 ≤ p then (1 : ℤ) else 0) + (if 40 ≤ p then (1 : ℤ) else 0) +
        (if 65 ≤ p then (1 : ℤ) else 0) + (if 120 ≤ d then (1 : ℤ) else 0)) 5) := by
    intro p d
    simp only [Predictor.visibility_stars]
    split_ifs <;> norm_num
  refine ⟨hformula, ?_, ?_, ?_, ?_, ?_, ?_⟩
  · intro p₁ p₂ d₁ d₂ hp hd
    rw [hformula, hformula]
    have h1 := indicator_mono 20 hp
    have h2 := indicator_mono 40 hp
    have h3 := indicator_mono 65 hp
    have h4 := indicator_mono 120 hd
    exact max_le_max le_rfl (min_le_min (by omega) le_rfl)
  all_goals
    rw [hformula]
    norm_num

/-- Witness for claim C5 instantiating the monotonicity conjunct. -/
theorem visibility_scorer_spec_witness :
    Predictor.visibility_stars 10 30 ≤ Predictor.visibility_stars 70 240 :=
  visibility_scorer_spec.2.1 10 70 30 240 (by norm_num) (by norm_num)

/-- Claim C3: the visibility mask holds at index i exactly when the
elevation is at least the configured minimum, the solar elevation is at
most the twilight threshold, and the satellite is sunlit; and any length
mismatch among the five parallel arrays makes the computation fail with
a size-mismatch error before any span processing. -/
theorem visibility_predicate_spec :
    (∀ (cfg : Config) (alt salt : List ℚ) (lit : List Bool) (n i : Nat), i < n →
      ((visMask cfg alt salt lit n).getD i false = true ↔
        (cfg.min_elev_deg ≤ alt.getD i 0 ∧ salt.getD i 0 ≤ cfg.twilight_deg ∧
          lit.getD i false = true))) ∧
    (∀ (cfg : Config) (ts : List ℤ) (alt az salt : List ℚ) (lit : List Bool),
      ¬ (ts.length = alt.length ∧ ts.length = az.length ∧ ts.length = salt.length ∧
          ts.length = lit.length) →
      windows_from_samples cfg ts alt az salt lit =
        Except.error PredictionError.sizeMismatch) := by
  constructor
  · intro cfg alt salt lit n i hi
    simp only [visMask, List.getD_eq_getElem?_getD, List.getElem?_map, List.getElem?_range, hi,
      Option.map_some', Option.getD_some, Bool.and_eq_true, decide_eq_true_eq, and_assoc]
  · intro cfg ts alt az salt lit h
    simp only [windows_from_samples]
    rw [if_pos h]

/-- Witness for claim C3: both conjuncts at concrete inputs. -/
theorem visibility_predicate_spec_witness :
    ((visMask ⟨12, -10, 10, 40⟩ [20] [-30] [true] 1).getD 0 false = true ↔
      ((12 : ℚ) ≤ 20 ∧ (-30 : ℚ) ≤ -10 ∧ true = true)) ∧
    windows_from_samples ⟨12, -10, 10, 40⟩ [0] [] [] [] [] =
      Except.error PredictionError.sizeMismatch :=
  ⟨visibility_predicate_spec.1 ⟨12, -10, 10, 40⟩ [20] [-30] [true] 1 0 (by norm_num),
    visibility_predicate_spec.2 ⟨12, -10, 10, 40⟩ [0] [] [] [] [] (by norm_num)⟩

/-- Claim C6: for rise R, set S with R ≤ S and fixed step D greater than
0, the pass sampler starts at R, steps by exactly D through the loop
part, never exceeds S, appends S exactly when the last on-step sample is
not S, is non-decreasing with first element R and last element S, and
has length at least 2 exactly when R is strictly before S and length 1
exactly when R equals S. -/
theorem pass_sampler_spec (R S D : ℤ) (hD : 0 < D) (hRS : R ≤ S) :
    (pass_samples R S D hD).head? = some R ∧
    (pass_samples R S D hD).getLast? = some S ∧
    List.Sorted (· ≤ ·) (pass_samples R S D hD) ∧
    (∀ x ∈ pass_samples R S D hD, R ≤ x ∧ x ≤ S) ∧
    List.Chain' (fun a b => b = a + D) (sampleLoop S D hD R) ∧
    (pass_samples R S D hD = if (sampleLoop S D hD R).getLast? = some S
      then sampleLoop S D hD R else sampleLoop S D hD R ++ [S]) ∧
    (2 ≤ (pass_samples R S D hD).length ↔ R < S) ∧
    ((pass_samples R S D hD).length = 1 ↔ R = S) := by
  have hps : pass_samples R S D hD = if (sampleLoop S D hD R).getLast? = some S
      then sampleLoop S D hD R else sampleLoop S D hD R ++ [S] := rfl
  have hloop : sampleLoop S D hD R = R :: sampleLoop S D hD (R + D) :=
    sampleLoop_cons hD hRS
  have hhead : (pass_samples R S D hD).head? = some R := by
    rw [hps]
    by_cases h : (sampleLoop S D hD R).getLast? = some S
    · rw [if_pos h, hloop]
      rfl
    · rw [if_neg h, List.head?_append, hloop]
      rfl
  have hlast : (pass_samples R S D hD).getLast? = some S := by
    rw [hps]
    by_cases h : (sampleLoop S D hD R).getLast? = some S
    · rw [if_pos h]
      exact h
    · rw [if_neg h, List.getLast?_concat]
  have hmem : ∀ x ∈ pass_samples R S D hD, R ≤ x ∧ x ≤ S := by
    intro x hx
    rw [hps] at hx
    by_cases h : (sampleLoop S D hD R).getLast? = some S
    · rw [if_pos h] at hx
      exact sampleLoop_mem hD R x hx
    · rw [if_neg h] at hx
      rcases List.mem_append.mp hx with hx | hx
      · exact sampleLoop_mem hD R x hx
      · rw [List.mem_singleton.mp hx]
        exact ⟨hRS, le_rfl⟩
  have hsorted : List.Sorted (· ≤ ·) (pass_samples R S D hD) := by
    rw [hps]
    by_cases h : (sampleLoop S D hD R).getLast? = some S
    · rw [if_pos h]
      exact sampleLoop_sorted hD R
    · rw [if_neg h]
      refine List.pairwise_append.mpr ⟨sampleLoop_sorted hD R, by simp, ?_⟩
      intro a ha b hb
      rw [List.mem_singleton.mp hb]
      exact (sampleLoop_mem hD R a ha).2
  have hlen1 : R = S → (pass_samples R S D hD).length = 1 := by
    intro h
    have hnil : sampleLoop S D hD (R + D) = [] := sampleLoop_nil hD (by omega)
    have hLval : sampleLoop S D hD R = [R] := by rw [hloop, hnil]
    rw [hps, hLval, h]
    simp
  have hlen2 : R < S → 2 ≤ (pass_samples R S D hD).length := by
    intro h
    by_cases h2 : R + D ≤ S
    · have hLval : sampleLoop S D hD R =
          R :: (R + D) :: sampleLoop S D hD (R + D + D) := by
        rw [hloop, sampleLoop_cons hD h2]
      rw [hps]
      by_cases hg : (sampleLoop S D hD R).getLast? = some S
      · rw [if_pos hg, hLval]
        simp
      · rw [if_neg hg, List.length_append, hLval]
        simp
    · have hnil : sampleLoop S D hD (R + D) = [] := sampleLoop_nil hD (by omega)
      have hLval : sampleLoop S D hD R = [R] := by rw [hloop, hnil]
      have hne : (sampleLoop S D hD R).getLast? ≠ some S := by
        rw [hLval]
        simp
        omega
      rw [hps, if_neg hne, hLval]
      simp
  refine ⟨hhead, hlast, hsorted, hmem, sampleLoop_chain hD R, hps, ?_, ?_⟩
  · constructor
    · intro h2
      rcases lt_or_eq_of_le hRS with h | h
      · exact h
      · have := hlen1 h
        omega
    · exact hlen2
  · constructor
    · intro h1
      rcases lt_or_eq_of_le hRS with h | h
      · have := hlen2 h
        omega
      · exact h
    · exact hlen1

/-- Witness for claim C6 at the spec example geometry: rise 0, set 55,
step 10. -/
theorem pass_sampler_spec_witness :
    (pass_samples 0 55 10 (by norm_num)).head? = some 0 ∧
      (pass_samples 0 55 10 (by norm_num)).getLast? = some 55 :=
  ⟨(pass_sampler_spec 0 55 10 (by norm_num) (by norm_num)).1,
    (pass_sampler_spec 0 55 10 (by norm_num) (by norm_num)).2.1⟩

/-- Claim C7: an access-denied (403) response from the stations-list URL
triggers exactly one retry against the alternate single-group URL, and a
403 from any other URL triggers no such retry: the fetch trace is then
the two URLs in order, respectively just the requested URL. -/
theorem fetch_tle_403_retry :
    (∀ (net : String → FetchOutcome) (cache : List ((String × String) × TLE)) (name : String),
      cache.lookup (name, FALLBACK_STATIONS_URL) = none →
      net FALLBACK_STATIONS_URL = FetchOutcome.httpError (some 403) →
      (fetch_tle net cache name FALLBACK_STATIONS_URL).fetched =
        [FALLBACK_STATIONS_URL, FALLBACK_GP_URL]) ∧
    (∀ (net : String → FetchOutcome) (cache : List ((String × String) × TLE))
      (name url : String),
      cache.lookup (name, url) = none → url ≠ FALLBACK_STATIONS_URL →
      net url = FetchOutcome.httpError (some 403) →
      (fetch_tle net cache name url).fetched = [url]) := by
  constructor
  · intro net cache name hcache h403
    rcases hgp : net FALLBACK_GP_URL with ls | st | _
    · rcases hp : parse_tle name ls FALLBACK_GP_URL with tle | e <;>
        simp [fetch_tle, hcache, h403, hgp, hp]
    · rcases hb : bundled_tle name with _ | tle <;>
        simp [fetch_tle, hcache, h403, hgp, hb]
    · rcases hb : bundled_tle name with _ | tle <;>
        simp [fetch_tle, hcache, h403, hgp, hb]
  · intro net cache name url hcache hne h403
    rcases hb : bundled_tle name with _ | tle <;>
      simp [fetch_tle, hcache, h403, hb, hne]

/-- Witness for claim C7 instantiating the retry conjunct. -/
theorem fetch_tle_403_retry_witness :
    (fetch_tle (fun _ => FetchOutcome.httpError (some 403)) [] "SAT"
      FALLBACK_STATIONS_URL).fetched = [FALLBACK_STATIONS_URL, FALLBACK_GP_URL] :=
  fetch_tle_403_retry.1 _ [] "SAT" rfl rfl

/-- Counterexample to claim C1 as stated: an HTTP non-success status
(500) from a URL that is not the stations-list URL does not surface a
fetch error when the requested name matches the bundled satellite; the
code recovers with the bundled element set instead. -/
theorem fetch_tle_http_fallback_counterexample :
    (fetch_tle (fun _ => FetchOutcome.httpError (some 500)) [] "ISS (ZARYA)"
        "https://example.com/elements.txt").result = Except.ok BUNDLED_ISS_TLE ∧
      "https://example.com/elements.txt" ≠ FALLBACK_STATIONS_URL := by
  have hb : bundled_tle "ISS (ZARYA)" = some BUNDLED_ISS_TLE := by
    unfold bundled_tle
    rw [if_pos (by decide)]
  refine ⟨?_, by decide⟩
  simp [fetch_tle, hb]

/-- Claim C1 as amended: for an uncached request whose fetch fails
(whether by transport failure or by HTTP non-success status), outside the
special 403-from-stations retry, fetch_tle recovers with the bundled
static element set exactly when the requested name matches the bundled
name case-insensitively, and surfaces a fetch error otherwise. -/
theorem fetch_tle_failure_fallback_iff
    (net : String → FetchOutcome) (cache : List ((String × String) × TLE))
    (name url : String)
    (hcache : cache.lookup (name, url) = none)
    (hfail : ∀ ls, net url ≠ FetchOutcome.success ls)
    (hnotretry : ¬ (net url = FetchOutcome.httpError (some 403) ∧
      url = FALLBACK_STATIONS_URL)) :
    (fetch_tle net cache name url).result =
      if strLower (strTrim name) = strLower BUNDLED_ISS_TLE.name then
        Except.ok BUNDLED_ISS_TLE
      else Except.error (TLEError.fetchFailed url) := by
  rcases hnet : net url with ls | st | _
  · exact absurd hnet (hfail ls)
  · have hcond : ¬ (st = some 403 ∧ url = FALLBACK_STATIONS_URL) := fun h =>
      hnotretry ⟨by rw [hnet, h.1], h.2⟩
    simp only [fetch_tle, hcache, hnet]
    rw [if_neg hcond]
    simp only [bundled_tle]
    split_ifs with hb <;> rfl
  · simp only [fetch_tle, hcache, hnet, bundled_tle]
    split_ifs with hb <;> rfl

/-- Witness for the amended claim C1: total transport failure with the
bundled name recovers with the bundled element set. -/
theorem fetch_tle_failure_fallback_iff_witness :
    (fetch_tle (fun _ => FetchOutcome.transportError) [] "ISS (ZARYA)" "u").result =
      (if strLower (strTrim "ISS (ZARYA)") = strLower BUNDLED_ISS_TLE.name then
        Except.ok BUNDLED_ISS_TLE
      else Except.error (TLEError.fetchFailed "u")) :=
  fetch_tle_failure_fallback_iff _ [] "ISS (ZARYA)" "u" rfl
    (fun _ h => FetchOutcome.noConfusion h) (fun h => FetchOutcome.noConfusion h.1)

/-- Claim C9: for any event sequence and per-pass window oracle, the
orchestrator output is sorted non-decreasing by start timestamp and is a
permutation of the concatenated windows of the matched rise/set pairs
(so the result is determined up to the deterministic sort regardless of
evaluation order), and a trailing unmatched rise event contributes no
windows. -/
theorem orchestrator_sorted_merge (pw : ℤ → ℤ → List VisibilityWindow)
    (events : List (ℤ × Nat)) :
    List.Sorted (fun a b => a.start_local ≤ b.start_local)
      (visible_windows_between pw events) ∧
    (visible_windows_between pw events).Perm
      ((matchedPairs none events).flatMap fun p => pw p.1 p.2) ∧
    (∀ t : ℤ, visible_windows_between pw (events ++ [(t, 0)]) =
      visible_windows_between pw events) := by
  refine ⟨?_, ?_, ?_⟩
  · have h : List.Pairwise
        (fun a b : VisibilityWindow => decide (a.start_local ≤ b.start_local) = true)
        ((collectWindows pw none events).mergeSort
          (fun a b => decide (a.start_local ≤ b.start_local))) :=
      List.sorted_mergeSort
        (fun a b c hab hbc => by
          simp only [decide_eq_true_eq] at *
          exact le_trans hab hbc)
        (fun a b => by
          simp only [Bool.or_eq_true, decide_eq_true_eq]
          exact le_total a.start_local b.start_local)
        (collectWindows pw none events)
    exact h.imp fun hab => of_decide_eq_true hab
  · exact (List.mergeSort_perm _ _).trans
      (by rw [collectWindows_eq_flatMap pw events none])
  · intro t
    unfold visible_windows_between
    rw [collectWindows_trailing_rise pw events none t]

/-- Claim C4: a span is emitted as a window exactly when its duration
reaches the configured minimum window seconds (shorter spans are
discarded); the peak is the first index of the span achieving the
maximal elevation; and on elevations 5, 16, 24, 23, 12, 4 at 10 second
spacing with threshold 15 and minimum window 20 seconds, exactly one
window results, of duration 20, peak elevation 24, and peak at sample
index 2 (timestamp 20). -/
theorem window_assembler_spec :
    (∀ (cfg : Config) (ts : List ℤ) (alt az : List ℚ) (s e : Nat),
      (spanWindow cfg ts alt az (s, e)).isSome ↔
        cfg.min_window_seconds ≤ ts.getD e 0 - ts.getD s 0) ∧
    (∀ (f : Nat → ℚ) (s e : Nat), s ≤ e →
      (s ≤ pyMaxRange f s e ∧ pyMaxRange f s e ≤ e) ∧
      (∀ j, s ≤ j → j ≤ e → f j ≤ f (pyMaxRange f s e)) ∧
      (∀ j, s ≤ j → j ≤ e → f (pyMaxRange f s e) ≤ f j → pyMaxRange f s e ≤ j)) ∧
    (∃ w : VisibilityWindow,
      windows_from_samples ⟨15, 0, 10, 20⟩ [0, 10, 20, 30, 40, 50]
          [5, 16, 24, 23, 12, 4] [0, 0, 0, 0, 0, 0] [-10, -10, -10, -10, -10, -10]
          [true, true, true, true, true, true] = Except.ok [w] ∧
        w.duration = 20 ∧ w.peak_elevation_deg = 24 ∧ w.peak_local = 20 ∧
        w.start_local = 10 ∧ w.end_local = 30) := by
  refine ⟨?_, pyMaxRange_spec, ?_⟩
  · intro cfg ts alt az s e
    simp only [spanWindow]
    split_ifs with h
    · exact iff_of_false (by simp) (by omega)
    · exact iff_of_true (by simp) (by omega)
  · exact ⟨_, rfl, rfl, rfl, rfl, rfl, rfl⟩

/-- Witness for claim C4 instantiating the emit-iff conjunct on the spec
example span. -/
theorem window_assembler_spec_witness :
    (spanWindow ⟨15, 0, 10, 20⟩ [0, 10, 20, 30, 40, 50] [5, 16, 24, 23, 12, 4]
      [0, 0, 0, 0, 0, 0] (1, 3)).isSome ↔
      (20 : ℤ) ≤ ([0, 10, 20, 30, 40, 50] : List ℤ).getD 3 0 -
        ([0, 10, 20, 30, 40, 50] : List ℤ).getD 1 0 :=
  window_assembler_spec.1 ⟨15, 0, 10, 20⟩ [0, 10, 20, 30, 40, 50] [5, 16, 24, 23, 12, 4]
    [0, 0, 0, 0, 0, 0] 1 3

theorem az_to_cardinal_bucket (p : Nat) (labels : List String)
    (hcl : compassLabels p = some labels) (k : Nat) (az : ℚ) (hk : k ≤ p)
    (h1 : (k : ℚ) * (360 / p) - 360 / p / 2 ≤ az)
    (h2 : az < (k : ℚ) * (360 / p) + 360 / p / 2) :
    az_to_cardinal az p = Except.ok (labels.getD (k % p) "") := by
  have hp : 0 < p := by
    by_contra hp0
    have hz : p = 0 := by omega
    subst hz
    simp [compassLabels] at hcl
  have hpq : (0 : ℚ) < (p : ℚ) := by exact_mod_cast hp
  have hB : (0 : ℚ) < 360 / (p : ℚ) := by positivity
  have hpB : (p : ℚ) * (360 / (p : ℚ)) = 360 := by field_simp
  have hfl : ((⌊az / 360⌋ : ℤ) : ℚ) ≤ az / 360 := Int.floor_le (az / 360)
  have hfu : az / 360 < ((⌊az / 360⌋ : ℤ) : ℚ) + 1 := Int.lt_floor_add_one (az / 360)
  have hml : (360 : ℚ) * ((⌊az / 360⌋ : ℤ) : ℚ) ≤ az := by
    have := mul_le_mul_of_nonneg_left hfl (by norm_num : (0 : ℚ) ≤ 360)
    calc (360 : ℚ) * ((⌊az / 360⌋ : ℤ) : ℚ) ≤ 360 * (az / 360) := this
      _ = az := by ring
  have hmu : az < 360 * ((⌊az / 360⌋ : ℤ) : ℚ) + 360 := by
    have := mul_lt_mul_of_pos_left hfu (by norm_num : (0 : ℚ) < 360)
    calc az = 360 * (az / 360) := by ring
      _ < 360 * (((⌊az / 360⌋ : ℤ) : ℚ) + 1) := this
      _ = 360 * ((⌊az / 360⌋ : ℤ) : ℚ) + 360 := by ring
  have hmulB : ((p : ℚ) * ((⌊az / 360⌋ : ℤ) : ℚ)) * (360 / (p : ℚ)) =
      360 * ((⌊az / 360⌋ : ℤ) : ℚ) := by
    rw [mul_comm ((p : ℚ)) ((⌊az / 360⌋ : ℤ) : ℚ), mul_assoc, hpB]
    ring
  have hq : ⌊(az - 360 * ((⌊az / 360⌋ : ℤ) : ℚ) + 360 / (p : ℚ) / 2) /
      (360 / (p : ℚ))⌋ = (k : ℤ) - p * ⌊az / 360⌋ := by
    rw [Int.floor_eq_iff]
    push_cast
    constructor
    · rw [le_div_iff₀ hB, sub_mul, hmulB]
      linarith [h1]
    · rw [div_lt_iff₀ hB, add_mul, one_mul, sub_mul, hmulB]
      linarith [h2]
  have hq0 : (0 : ℤ) ≤ (k : ℤ) - p * ⌊az / 360⌋ := by
    rw [← hq]
    apply Int.floor_nonneg.mpr
    apply div_nonneg
    · linarith [hml, hB]
    · linarith [hB]
  have hidx : ((k : ℤ) - p * ⌊az / 360⌋).toNat % p = k % p := by
    have hz : ((((k : ℤ) - p * ⌊az / 360⌋).toNat % p : ℕ) : ℤ) = ((k % p : ℕ) : ℤ) := by
      rw [Int.natCast_mod, Int.natCast_mod, Int.toNat_of_nonneg hq0, sub_eq_add_neg,
        ← mul_neg]
      apply Int.add_mul_emod_self_left
    exact_mod_cast hz
  simp only [az_to_cardinal, hcl]
  rw [hq, hidx]

/-- Claim C8: az_to_cardinal is periodic with period 360 (so -1 and 359,
and 721 and 1, map identically); for every supported resolution p (the
resolutions 4, 8 and 16, exactly those for which the labels table is
defined) and every bucket index k up to p, any azimuth in the half-open
bucket centered on label k (closed on the counterclockwise boundary)
maps to label k mod p, so a value exactly on a boundary rounds to the
clockwise-next label; the six documented concrete values hold; and the
unsupported resolution 12 fails with a configuration error for every
azimuth. -/
theorem compass_mapper_spec :
    (∀ (az : ℚ) (points : Nat),
      az_to_cardinal (az + 360) points = az_to_cardinal az points) ∧
    (∀ (p : Nat) (labels : List String), compassLabels p = some labels →
      ∀ (k : Nat) (az : ℚ), k ≤ p →
        (k : ℚ) * (360 / p) - 360 / p / 2 ≤ az →
        az < (k : ℚ) * (360 / p) + 360 / p / 2 →
        az_to_cardinal az p = Except.ok (labels.getD (k % p) "")) ∧
    az_to_cardinal 0 16 = Except.ok "N" ∧
    az_to_cardinal (45 / 4) 16 = Except.ok "NNE" ∧
    az_to_cardinal (-1) 16 = Except.ok "N" ∧
    az_to_cardinal 721 16 = Except.ok "N" ∧
    az_to_cardinal 44 4 = Except.ok "N" ∧
    az_to_cardinal 44 8 = Except.ok "NE" ∧
    (∀ az : ℚ, az_to_cardinal az 12 = Except.error ConfigError.unsupportedPoints) := by
  have hnorm : ∀ az : ℚ,
      az + 360 - 360 * ((⌊(az + 360) / 360⌋ : ℤ) : ℚ) =
        az - 360 * ((⌊az / 360⌋ : ℤ) : ℚ) := by
    intro az
    have h1 : (az + 360) / 360 = az / 360 + 1 := by ring
    rw [h1, Int.floor_add_one]
    push_cast
    ring
  refine ⟨?_, az_to_cardinal_bucket, ?_, ?_, ?_, ?_, ?_, ?_, fun _ => rfl⟩
  · intro az points
    rcases hcl : compassLabels points with _ | labels
    · simp [az_to_cardinal, hcl]
    · simp only [az_to_cardinal, hcl]
      rw [hnorm az]
  all_goals
    norm_num [az_to_cardinal, compassLabels, labels16, labels8, labels4]
  all_goals rfl

/-- Witness for claim C8 instantiating the centered-bucket conjunct at
the 8-point and 4-point resolutions: azimuth 100 lies in bucket 2 of the
8-point compass (label E), and the boundary value 45 lies in bucket 1 of
the 4-point compass (the clockwise-next label E). -/
theorem compass_mapper_spec_witness :
    az_to_cardinal 100 8 = Except.ok (labels8.getD (2 % 8) "") ∧
      az_to_cardinal 45 4 = Except.ok (labels4.getD (1 % 4) "") :=
  ⟨compass_mapper_spec.2.1 8 labels8 rfl 2 100 (by norm_num) (by norm_num) (by norm_num),
    compass_mapper_spec.2.1 4 labels4 rfl 1 45 (by norm_num) (by norm_num) (by norm_num)⟩

theorem getD_cons_shift (v : Bool) (t : List Bool) {m : Nat} (h : 1 ≤ m) :
    (v :: t).getD m false = t.getD (m - 1) false := by
  obtain ⟨m', rfl⟩ : ∃ m', m = m' + 1 := ⟨m - 1, by omega⟩
  simp

theorem closedRun_cons_false (i : Nat) (t : List Bool) (a b : Nat) :
    ClosedRun i (false :: t) a b ↔ ClosedRun (i + 1) t a b := by
  unfold ClosedRun
  constructor
  · rintro ⟨hia, hab, hb, hall, hprev, hnext⟩
    simp only [List.length_cons] at hb
    have hai : a ≠ i := by
      intro h
      have h0 := hall a le_rfl hab
      rw [h, Nat.sub_self] at h0
      simp at h0
    refine ⟨by omega, hab, by omega, ?_, ?_, ?_⟩
    · intro j hj1 hj2
      have h0 := hall j hj1 hj2
      rw [getD_cons_shift _ _ (by omega)] at h0
      have heq : j - i - 1 = j - (i + 1) := by omega
      rwa [heq] at h0
    · by_cases ha1 : a = i + 1
      · exact Or.inl ha1
      · rcases hprev with h | h
        · omega
        · rw [getD_cons_shift _ _ (by omega)] at h
          have heq : a - 1 - i - 1 = a - 1 - (i + 1) := by omega
          rw [heq] at h
          exact Or.inr h
    · rw [getD_cons_shift _ _ (by omega)] at hnext
      have heq : b + 1 - i - 1 = b + 1 - (i + 1) := by omega
      rwa [heq] at hnext
  · rintro ⟨hia, hab, hb, hall, hprev, hnext⟩
    refine ⟨by omega, hab, by simp only [List.length_cons]; omega, ?_, ?_, ?_⟩
    · intro j hj1 hj2
      rw [getD_cons_shift _ _ (by omega)]
      have heq : j - i - 1 = j - (i + 1) := by omega
      rw [heq]
      exact hall j hj1 hj2
    · refine Or.inr ?_
      by_cases ha1 : a = i + 1
      · rw [ha1]
        simp
      · rcases hprev with h | h
        · omega
        · rw [getD_cons_shift _ _ (by omega)]
          have heq : a - 1 - i - 1 = a - 1 - (i + 1) := by omega
          rw [heq]
          exact h
    · rw [getD_cons_shift _ _ (by omega)]
      have heq : b + 1 - i - 1 = b + 1 - (i + 1) := by omega
      rw [heq]
      exact hnext

theorem trailRun_cons_false (i : Nat) (t : List Bool) (r : Nat) :
    TrailRun i (false :: t) r ↔ TrailRun (i + 1) t r := by
  unfold TrailRun
  constructor
  · rintro ⟨hir, hr, hall, hprev⟩
    simp only [List.length_cons] at hr hall
    have hri : r ≠ i := by
      intro h
      have h0 := hall r le_rfl (by omega)
      rw [h, Nat.sub_self] at h0
      simp at h0
    refine ⟨by omega, by omega, ?_, ?_⟩
    · intro j hj1 hj2
      have h0 := hall j hj1 (by omega)
      rw [getD_cons_shift _ _ (by omega)] at h0
      have heq : j - i - 1 = j - (i + 1) := by omega
      rwa [heq] at h0
    · by_cases hr1 : r = i + 1
      · exact Or.inl hr1
      · rcases hprev with h | h
        · omega
        · rw [getD_cons_shift _ _ (by omega)] at h
          have heq : r - 1 - i - 1 = r - 1 - (i + 1) := by omega
          rw [heq] at h
          exact Or.inr h
  · rintro ⟨hir, hr, hall, hprev⟩
    refine ⟨by omega, by simp only [List.length_cons]; omega, ?_, ?_⟩
    · intro j hj1 hj2
      simp only [List.length_cons] at hj2
      rw [getD_cons_shift _ _ (by omega)]
      have heq : j - i - 1 = j - (i + 1) := by omega
      rw [heq]
      exact hall j hj1 (by omega)
    · refine Or.inr ?_
      by_cases hr1 : r = i + 1
      · rw [hr1]
        simp
      · rcases hprev with h | h
        · omega
        · rw [getD_cons_shift _ _ (by omega)]
          have heq : r - 1 - i - 1 = r - 1 - (i + 1) := by omega
          rw [heq]
          exact h

theorem closedRun_cons_true (i : Nat) (t : List Bool) (a b : Nat) (ha : a ≠ i) :
    ClosedRun i (true :: t) a b ↔ (ClosedRun (i + 1) t a b ∧ i + 1 < a) := by
  unfold ClosedRun
  constructor
  · rintro ⟨hia, hab, hb, hall, hprev, hnext⟩
    simp only [List.length_cons] at hb
    have hprevD : (true :: t).getD (a - 1 - i) false = false := by
      rcases hprev with h | h
      · omega
      · exact h
    have ha2 : i + 2 ≤ a := by
      rcases Nat.lt_or_ge a (i + 2) with h | h
      · have haeq : a = i + 1 := by omega
        rw [haeq] at hprevD
        simp at hprevD
      · exact h
    refine ⟨⟨by omega, hab, by omega, ?_, ?_, ?_⟩, by omega⟩
    · intro j hj1 hj2
      have h0 := hall j hj1 hj2
      rw [getD_cons_shift _ _ (by omega)] at h0
      have heq : j - i - 1 = j - (i + 1) := by omega
      rwa [heq] at h0
    · refine Or.inr ?_
      rw [getD_cons_shift _ _ (by omega)] at hprevD
      have heq : a - 1 - i - 1 = a - 1 - (i + 1) := by omega
      rwa [heq] at hprevD
    · rw [getD_cons_shift _ _ (by omega)] at hnext
      have heq : b + 1 - i - 1 = b + 1 - (i + 1) := by omega
      rwa [heq] at hnext
  · rintro ⟨⟨hia, hab, hb, hall, hprev, hnext⟩, ha2⟩
    refine ⟨by omega, hab, by simp only [List.length_cons]; omega, ?_, ?_, ?_⟩
    · intro j hj1 hj2
      rw [getD_cons_shift _ _ (by omega)]
      have heq : j - i - 1 = j - (i + 1) := by omega
      rw [heq]
      exact hall j hj1 hj2
    · refine Or.inr ?_
      rw [getD_cons_shift _ _ (by omega)]
      have heq : a - 1 - i - 1 = a - 1 - (i + 1) := by omega
      rw [heq]
      rcases hprev with h | h
      · omega
      · exact h
    · rw [getD_cons_shift _ _ (by omega)]
      have heq : b + 1 - i - 1 = b + 1 - (i + 1) := by omega
      rw [heq]
      exact hnext

theorem closedRun_cons_true_at (i : Nat) (t : List Bool) (b : Nat) :
    ClosedRun i (true :: t) i b ↔ FirstClose (i + 1) t b := by
  unfold ClosedRun FirstClose
  constructor
  · rintro ⟨_, hab, hb, hall, _, hnext⟩
    simp only [List.length_cons] at hb
    refine ⟨by omega, by omega, ?_, ?_⟩
    · intro j hj1 hj2
      have h0 := hall j (by omega) hj2
      rw [getD_cons_shift _ _ (by omega)] at h0
      have heq : j - i - 1 = j - (i + 1) := by omega
      rwa [heq] at h0
    · rw [getD_cons_shift _ _ (by omega)] at hnext
      have heq : b + 1 - i - 1 = b + 1 - (i + 1) := by omega
      rwa [heq] at hnext
  · rintro ⟨hib, hb, hall, hnext⟩
    refine ⟨le_rfl, by omega, by simp only [List.length_cons]; omega, ?_, Or.inl rfl, ?_⟩
    · intro j hj1 hj2
      by_cases hji : j = i
      · rw [hji, Nat.sub_self]
        simp
      · rw [getD_cons_shift _ _ (by omega)]
        have heq : j - i - 1 = j - (i + 1) := by omega
        rw [heq]
        exact hall j (by omega) hj2
    · rw [getD_cons_shift _ _ (by omega)]
      have heq : b + 1 - i - 1 = b + 1 - (i + 1) := by omega
      rw [heq]
      exact hnext

theorem trailRun_cons_true (i : Nat) (t : List Bool) (r : Nat) (hr : r ≠ i) :
    TrailRun i (true :: t) r ↔ (TrailRun (i + 1) t r ∧ i + 1 < r) := by
  unfold TrailRun
  constructor
  · rintro ⟨hir, hrb, hall, hprev⟩
    simp only [List.length_cons] at hrb hall
    have hprevD : (true :: t).getD (r - 1 - i) false = false := by
      rcases hprev with h | h
      · omega
      · exact h
    have hr2 : i + 2 ≤ r := by
      rcases Nat.lt_or_ge r (i + 2) with h | h
      · have hreq : r = i + 1 := by omega
        rw [hreq] at hprevD
        simp at hprevD
      · exact h
    refine ⟨⟨by omega, by omega, ?_, ?_⟩, by omega⟩
    · intro j hj1 hj2
      have h0 := hall j hj1 (by omega)
      rw [getD_cons_shift _ _ (by omega)] at h0
      have heq : j - i - 1 = j - (i + 1) := by omega
      rwa [heq] at h0
    · refine Or.inr ?_
      rw [getD_cons_shift _ _ (by omega)] at hprevD
      have heq : r - 1 - i - 1 = r - 1 - (i + 1) := by omega
      rwa [heq] at hprevD
  · rintro ⟨⟨hir, hrb, hall, hprev⟩, hr2⟩
    refine ⟨by omega, by simp only [List.length_cons]; omega, ?_, ?_⟩
    · intro j hj1 hj2
      simp only [List.length_cons] at hj2
      rw [getD_cons_shift _ _ (by omega)]
      have heq : j - i - 1 = j - (i + 1) := by omega
      rw [heq]
      exact hall j hj1 (by omega)
    · refine Or.inr ?_
      rw [getD_cons_shift _ _ (by omega)]
      have heq : r - 1 - i - 1 = r - 1 - (i + 1) := by omega
      rw [heq]
      rcases hprev with h | h
      · omega
      · exact h

theorem trailRun_cons_true_at (i : Nat) (t : List Bool) :
    TrailRun i (true :: t) i ↔ AllTrue t := by
  unfold TrailRun AllTrue
  constructor
  · rintro ⟨_, _, hall, _⟩
    intro m hm
    have h0 := hall (m + i + 1) (by omega) (by simp only [List.length_cons]; omega)
    rw [getD_cons_shift _ _ (by omega)] at h0
    have heq : m + i + 1 - i - 1 = m := by omega
    rwa [heq] at h0
  · intro hall
    refine ⟨le_rfl, by simp only [List.length_cons]; omega, ?_, Or.inl rfl⟩
    intro j hj1 hj2
    simp only [List.length_cons] at hj2
    by_cases hji : j = i
    · rw [hji, Nat.sub_self]
      simp
    · rw [getD_cons_shift _ _ (by omega)]
      have heq : j - i - 1 = j - (i + 1) := by omega
      rw [heq]
      exact hall (j - (i + 1)) (by omega)

theorem firstClose_cons_true (i : Nat) (t : List Bool) (b : Nat) :
    FirstClose i (true :: t) b ↔ FirstClose (i + 1) t b := by
  unfold FirstClose
  constructor
  · rintro ⟨hib, hb, hall, hnext⟩
    simp only [List.length_cons] at hb
    have hbi : b + 1 ≠ i := by
      intro h
      rw [show b + 1 - i = 0 by omega] at hnext
      simp at hnext
    refine ⟨by omega, by omega, ?_, ?_⟩
    · intro j hj1 hj2
      have h0 := hall j (by omega) hj2
      rw [getD_cons_shift _ _ (by omega)] at h0
      have heq : j - i - 1 = j - (i + 1) := by omega
      rwa [heq] at h0
    · rw [getD_cons_shift _ _ (by omega)] at hnext
      have heq : b + 1 - i - 1 = b + 1 - (i + 1) := by omega
      rwa [heq] at hnext
  · rintro ⟨hib, hb, hall, hnext⟩
    refine ⟨by omega, by simp only [List.length_cons]; omega, ?_, ?_⟩
    · intro j hj1 hj2
      by_cases hji : j = i
      · rw [hji, Nat.sub_self]
        simp
      · rw [getD_cons_shift _ _ (by omega)]
        have heq : j - i - 1 = j - (i + 1) := by omega
        rw [heq]
        exact hall j (by omega) hj2
    · rw [getD_cons_shift _ _ (by omega)]
      have heq : b + 1 - i - 1 = b + 1 - (i + 1) := by omega
      rw [heq]
      exact hnext

theorem firstClose_cons_false (i : Nat) (t : List Bool) (b : Nat) (hi : 1 ≤ i) :
    FirstClose i (false :: t) b ↔ b = i - 1 := by
  unfold FirstClose
  constructor
  · rintro ⟨hib, hb, hall, hnext⟩
    by_contra hbi
    have hbge : i ≤ b := by omega
    have h0 := hall i le_rfl hbge
    rw [Nat.sub_self] at h0
    simp at h0
  · rintro rfl
    refine ⟨by omega, by simp only [List.length_cons]; omega, ?_, ?_⟩
    · intro j hj1 hj2
      omega
    · rw [show i - 1 + 1 - i = 0 by omega]
      simp

theorem allTrue_cons_true (t : List Bool) : AllTrue (true :: t) ↔ AllTrue t := by
  unfold AllTrue
  constructor
  · intro h m hm
    have h0 := h (m + 1) (by simp only [List.length_cons]; omega)
    simpa using h0
  · intro h j hj
    simp only [List.length_cons] at hj
    cases j with
    | zero => simp
    | succ m => simpa using h m (by omega)

theorem allTrue_cons_false (t : List Bool) : ¬ AllTrue (false :: t) := by
  intro h
  have h0 := h 0 (by simp only [List.length_cons]; omega)
  simp at h0

theorem closedRun_nil (i a b : Nat) : ¬ ClosedRun i [] a b := by
  rintro ⟨_, _, hb, _, _, _⟩
  simp at hb

theorem trailRun_nil (i r : Nat) : ¬ TrailRun i [] r := by
  rintro ⟨_, hr, _, _⟩
  simp at hr

theorem firstClose_nil (i b : Nat) : ¬ FirstClose i [] b := by
  rintro ⟨_, hb, _, _⟩
  simp at hb

theorem ctsGo_append : ∀ (l : List Bool) (spans : List (Nat × Nat)) (start : Option Nat)
    (i : Nat),
    ctsGo spans start i l = (spans ++ (ctsGo [] start i l).1, (ctsGo [] start i l).2) := by
  intro l
  induction l with
  | nil =>
    intro spans start i
    simp [ctsGo]
  | cons v rest ih =>
    intro spans start i
    rcases start with _ | s <;> cases v
    · simp only [ctsGo]
      exact ih spans none (i + 1)
    · simp only [ctsGo]
      exact ih spans (some i) (i + 1)
    · simp only [ctsGo, List.nil_append]
      rw [ih (spans ++ [(s, i - 1)]) none (i + 1), ih [(s, i - 1)] none (i + 1)]
      simp [List.append_assoc]
    · simp only [ctsGo]
      exact ih spans (some s) (i + 1)

theorem ctsGo_spec_nil (i : Nat) :
    ((∀ a b : Nat, (a, b) ∈ (ctsGo [] none i []).1 ↔ ClosedRun i [] a b) ∧
      (∀ r : Nat, (ctsGo [] none i []).2 = some r ↔ TrailRun i [] r)) ∧
    (∀ s : Nat, s < i →
      ((∀ a b : Nat, (a, b) ∈ (ctsGo [] (some s) i []).1 ↔
          ((a = s ∧ FirstClose i [] b) ∨ (ClosedRun i [] a b ∧ i < a))) ∧
        (∀ r : Nat, (ctsGo [] (some s) i []).2 = some r ↔
          ((r = s ∧ AllTrue []) ∨ (TrailRun i [] r ∧ i < r))))) := by
  refine ⟨⟨?_, ?_⟩, ?_⟩
  · intro a b
    exact iff_of_false (by simp [ctsGo]) (closedRun_nil i a b)
  · intro r
    exact iff_of_false (by simp [ctsGo]) (trailRun_nil i r)
  · intro s hs
    constructor
    · intro a b
      refine iff_of_false (by simp [ctsGo]) ?_
      rintro (⟨_, h⟩ | ⟨h, _⟩)
      · exact firstClose_nil i b h
      · exact closedRun_nil i a b h
    · intro r
      constructor
      · intro h
        simp only [ctsGo] at h
        refine Or.inl ⟨?_, ?_⟩
        · exact (Option.some_inj.mp h).symm
        · intro j hj
          simp at hj
      · rintro (⟨rfl, _⟩ | ⟨h, _⟩)
        · simp [ctsGo]
        · exact absurd h (trailRun_nil i r)

theorem ctsGo_spec : ∀ (n : Nat) (l : List Bool), l.length ≤ n → ∀ i : Nat,
    ((∀ a b : Nat, (a, b) ∈ (ctsGo [] none i l).1 ↔ ClosedRun i l a b) ∧
      (∀ r : Nat, (ctsGo [] none i l).2 = some r ↔ TrailRun i l r)) ∧
    (∀ s : Nat, s < i →
      ((∀ a b : Nat, (a, b) ∈ (ctsGo [] (some s) i l).1 ↔
          ((a = s ∧ FirstClose i l b) ∨ (ClosedRun i l a b ∧ i < a))) ∧
        (∀ r : Nat, (ctsGo [] (some s) i l).2 = some r ↔
          ((r = s ∧ AllTrue l) ∨ (TrailRun i l r ∧ i < r))))) := by
  intro n
  induction n with
  | zero =>
    intro l hl i
    obtain rfl : l = [] := List.length_eq_zero.mp (by omega)
    exact ctsGo_spec_nil i
  | succ n ih =>
    intro l hl i
    cases l with
    | nil => exact ctsGo_spec_nil i
    | cons v t =>
      simp only [List.length_cons] at hl
      have ht : t.length ≤ n := by omega
      cases v
      · -- head false
        refine ⟨⟨?_, ?_⟩, ?_⟩
        · intro a b
          have hred : ctsGo [] none i (false :: t) = ctsGo [] none (i + 1) t := rfl
          rw [hred, (ih t ht (i + 1)).1.1 a b]
          exact (closedRun_cons_false i t a b).symm
        · intro r
          have hred : ctsGo [] none i (false :: t) = ctsGo [] none (i + 1) t := rfl
          rw [hred, (ih t ht (i + 1)).1.2 r]
          exact (trailRun_cons_false i t r).symm
        · intro s hs
          have hred : ctsGo [] (some s) i (false :: t) =
              ctsGo [(s, i - 1)] none (i + 1) t := rfl
          have happ := ctsGo_append t [(s, i - 1)] none (i + 1)
          constructor
          · intro a b
            rw [hred, happ]
            simp only [List.singleton_append, List.mem_cons]
            rw [(ih t ht (i + 1)).1.1 a b]
            constructor
            · rintro (hab | hcr)
              · have ha : a = s := congrArg Prod.fst hab
                have hb : b = i - 1 := congrArg Prod.snd hab
                exact Or.inl ⟨ha, (firstClose_cons_false i t b (by omega)).mpr hb⟩
              · exact Or.inr ⟨(closedRun_cons_false i t a b).mpr hcr, by
                  have := hcr.1
                  omega⟩
            · rintro (⟨rfl, hfc⟩ | ⟨hcr, hlt⟩)
              · have hb : b = i - 1 := (firstClose_cons_false i t b (by omega)).mp hfc
                exact Or.inl (by rw [hb])
              · exact Or.inr ((closedRun_cons_false i t a b).mp hcr)
          · intro r
            rw [hred, happ]
            simp only []
            rw [(ih t ht (i + 1)).1.2 r]
            constructor
            · intro htr
              refine Or.inr ⟨(trailRun_cons_false i t r).mpr htr, ?_⟩
              have := htr.1
              omega
            · rintro (⟨_, hat⟩ | ⟨htr, _⟩)
              · exact absurd hat (allTrue_cons_false t)
              · exact (trailRun_cons_false i t r).mp htr
      · -- head true
        refine ⟨⟨?_, ?_⟩, ?_⟩
        · intro a b
          have hred : ctsGo [] none i (true :: t) = ctsGo [] (some i) (i + 1) t := rfl
          rw [hred, ((ih t ht (i + 1)).2 i (by omega)).1 a b]
          constructor
          · rintro (⟨rfl, hfc⟩ | ⟨hcr, hlt⟩)
            · exact (closedRun_cons_true_at a t b).mpr hfc
            · exact (closedRun_cons_true i t a b (by omega)).mpr ⟨hcr, hlt⟩
          · intro hcr
            by_cases ha : a = i
            · subst ha
              exact Or.inl ⟨rfl, (closedRun_cons_true_at a t b).mp hcr⟩
            · exact Or.inr ((closedRun_cons_true i t a b ha).mp hcr)
        · intro r
          have hred : ctsGo [] none i (true :: t) = ctsGo [] (some i) (i + 1) t := rfl
          rw [hred, ((ih t ht (i + 1)).2 i (by omega)).2 r]
          constructor
          · rintro (⟨rfl, hat⟩ | ⟨htr, hlt⟩)
            · exact (trailRun_cons_true_at r t).mpr hat
            · exact (trailRun_cons_true i t r (by omega)).mpr ⟨htr, hlt⟩
          · intro htr
            by_cases hr : r = i
            · subst hr
              exact Or.inl ⟨rfl, (trailRun_cons_true_at r t).mp htr⟩
            · exact Or.inr ((trailRun_cons_true i t r hr).mp htr)
        · intro s hs
          have hred : ctsGo [] (some s) i (true :: t) = ctsGo [] (some s) (i + 1) t := rfl
          constructor
          · intro a b
            rw [hred, ((ih t ht (i + 1)).2 s (by omega)).1 a b]
            constructor
            · rintro (⟨rfl, hfc⟩ | ⟨hcr, hlt⟩)
              · exact Or.inl ⟨rfl, (firstClose_cons_true i t b).mpr hfc⟩
              · exact Or.inr ⟨(closedRun_cons_true i t a b (by omega)).mpr ⟨hcr, hlt⟩,
                  by omega⟩
            · rintro (⟨rfl, hfc⟩ | ⟨hcr, hlt⟩)
              · exact Or.inl ⟨rfl, (firstClose_cons_true i t b).mp hfc⟩
              · have ha : a ≠ i := by omega
                exact Or.inr ((closedRun_cons_true i t a b ha).mp hcr)
          · intro r
            rw [hred, ((ih t ht (i + 1)).2 s (by omega)).2 r]
            constructor
            · rintro (⟨rfl, hat⟩ | ⟨htr, hlt⟩)
              · exact Or.inl ⟨rfl, (allTrue_cons_true t).mpr hat⟩
              · exact Or.inr ⟨(trailRun_cons_true i t r (by omega)).mpr ⟨htr, hlt⟩,
                  by omega⟩
            · rintro (⟨rfl, hat⟩ | ⟨htr, hlt⟩)
              · exact Or.inl ⟨rfl, (allTrue_cons_true t).mp hat⟩
              · have hr : r ≠ i := by omega
                exact Or.inr ((trailRun_cons_true i t r hr).mp htr)

theorem closedRun_zero_isRun {mask : List Bool} {a b : Nat} (h : ClosedRun 0 mask a b) :
    IsRun mask a b := by
  obtain ⟨_, hab, hb, hall, hprev, hnext⟩ := h
  simp only [Nat.sub_zero] at hb hall hprev hnext
  refine ⟨hab, by omega, ?_, ?_, Or.inr hnext⟩
  · intro j hj1 hj2
    have := hall j hj1 hj2
    simpa using this
  · exact hprev
theorem trailRun_last_isRun {mask : List Bool} {r : Nat} (h : TrailRun 0 mask r) :
    IsRun mask r (mask.length - 1) := by
  obtain ⟨_, hr, hall, hprev⟩ := h
  simp only [Nat.sub_zero, Nat.zero_add] at hr hall hprev
  refine ⟨by omega, by omega, ?_, hprev, Or.inl (by omega)⟩
  intro j hj1 hj2
  have := hall j hj1 (by omega)
  simpa using this

theorem isRun_split {mask : List Bool} {a b : Nat} (h : IsRun mask a b) :
    ClosedRun 0 mask a b ∨ (TrailRun 0 mask a ∧ b = mask.length - 1) := by
  obtain ⟨hab, hb, hall, hprev, hlast⟩ := h
  by_cases hbl : b + 1 = mask.length
  · refine Or.inr ⟨⟨Nat.zero_le a, by omega, ?_, ?_⟩, by omega⟩
    · intro j hj1 hj2
      simp only [Nat.zero_add] at hj2
      simpa using hall j hj1 (by omega)
    · simpa using hprev
  · have hnext : mask.getD (b + 1) false = false := by
      rcases hlast with h | h
      · exact absurd h hbl
      · exact h
    refine Or.inl ⟨Nat.zero_le a, hab, by omega, ?_, ?_, ?_⟩
    · intro j hj1 hj2
      simpa using hall j hj1 hj2
    · simpa using hprev
    · simpa using hnext

theorem trailRun_unique (mask : List Bool) (r1 r2 : Nat)
    (h1 : TrailRun 0 mask r1) (h2 : TrailRun 0 mask r2) : r1 = r2 := by
  by_contra hne
  wlog hlt : r1 < r2 generalizing r1 r2
  · exact this r2 r1 h2 h1 (by omega) (by omega)
  obtain ⟨_, hr2, hall2, hprev2⟩ := h2
  obtain ⟨_, hr1, hall1, _⟩ := h1
  simp only [Nat.sub_zero, Nat.zero_add] at hr1 hr2 hall1 hprev2
  rcases hprev2 with h | h
  · omega
  · have htrue := hall1 (r2 - 1) (by omega) (by omega)
    simp only [Nat.sub_zero] at htrue h
    rw [htrue] at h
    simp at h

theorem cts_mem_iff (mask : List Bool) (a b : Nat) :
    (a, b) ∈ contiguous_true_spans mask ↔ IsRun mask a b := by
  have hmain := ctsGo_spec mask.length mask le_rfl 0
  rcases hgo : ctsGo [] none 0 mask with ⟨spans, st⟩
  rw [hgo] at hmain
  have hcts : contiguous_true_spans mask =
      (match (spans, st) with
        | (spans, some s) => spans ++ [(s, mask.length - 1)]
        | (spans, none) => spans) := by
    unfold contiguous_true_spans
    rw [hgo]
  cases st with
  | none =>
    rw [hcts]
    simp only []
    rw [hmain.1.1 a b]
    constructor
    · exact closedRun_zero_isRun
    · intro hrun
      rcases isRun_split hrun with h | ⟨htr, _⟩
      · exact h
      · have := (hmain.1.2 a).mpr htr
        simp at this
  | some r =>
    rw [hcts]
    simp only [List.mem_append, List.mem_singleton]
    have htrail : TrailRun 0 mask r := (hmain.1.2 r).mp rfl
    rw [hmain.1.1 a b]
    constructor
    · rintro (h | h)
      · exact closedRun_zero_isRun h
      · have ha : a = r := congrArg Prod.fst h
        have hb : b = mask.length - 1 := congrArg Prod.snd h
        rw [ha, hb]
        exact trailRun_last_isRun htrail
    · intro hrun
      rcases isRun_split hrun with h | ⟨htr, hb⟩
      · exact Or.inl h
      · have ha : a = r := trailRun_unique mask a r htr htrail
        exact Or.inr (by rw [ha, hb])

theorem ctsGo_pairwise : ∀ (n : Nat) (l : List Bool), l.length ≤ n →
    ∀ (i : Nat) (st : Option Nat), (∀ s, st = some s → s < i) →
    List.Pairwise (fun p q : Nat × Nat => p.2 + 1 < q.1) (ctsGo [] st i l).1 := by
  intro n
  induction n with
  | zero =>
    intro l hl i st _
    obtain rfl : l = [] := List.length_eq_zero.mp (by omega)
    cases st <;> simp [ctsGo]
  | succ n ih =>
    intro l hl i st hst
    cases l with
    | nil => cases st <;> simp [ctsGo]
    | cons v t =>
      simp only [List.length_cons] at hl
      have ht : t.length ≤ n := by omega
      rcases st with _ | s
      · cases v
        · have hred : ctsGo [] none i (false :: t) = ctsGo [] none (i + 1) t := rfl
          rw [hred]
          exact ih t ht (i + 1) none (by simp)
        · have hred : ctsGo [] none i (true :: t) = ctsGo [] (some i) (i + 1) t := rfl
          rw [hred]
          refine ih t ht (i + 1) (some i) ?_
          rintro s hh
          cases hh
          omega
      · have hs : s < i := hst s rfl
        cases v
        · have hred : ctsGo [] (some s) i (false :: t) =
              ctsGo [(s, i - 1)] none (i + 1) t := rfl
          rw [hred, ctsGo_append t [(s, i - 1)] none (i + 1)]
          simp only [List.singleton_append]
          refine List.pairwise_cons.mpr ⟨?_, ih t ht (i + 1) none (by simp)⟩
          rintro ⟨qa, qb⟩ hq
          have hcr := ((ctsGo_spec t.length t le_rfl (i + 1)).1.1 qa qb).mp hq
          have hqa : i + 1 ≤ qa := hcr.1
          simp only []
          omega
        · have hred : ctsGo [] (some s) i (true :: t) = ctsGo [] (some s) (i + 1) t := rfl
          rw [hred]
          refine ih t ht (i + 1) (some s) ?_
          rintro s' hh
          cases hh
          omega

theorem cts_pairwise (mask : List Bool) :
    List.Pairwise (fun p q : Nat × Nat => p.2 + 1 < q.1) (contiguous_true_spans mask) := by
  have hmain := ctsGo_spec mask.length mask le_rfl 0
  have hpw := ctsGo_pairwise mask.length mask le_rfl 0 none (by simp)
  rcases hgo : ctsGo [] none 0 mask with ⟨spans, st⟩
  rw [hgo] at hmain hpw
  have hcts : contiguous_true_spans mask =
      (match (spans, st) with
        | (spans, some s) => spans ++ [(s, mask.length - 1)]
        | (spans, none) => spans) := by
    unfold contiguous_true_spans
    rw [hgo]
  cases st with
  | none =>
    rw [hcts]
    exact hpw
  | some r =>
    rw [hcts]
    simp only []
    refine List.pairwise_append.mpr ⟨hpw, by simp, ?_⟩
    rintro ⟨pa, pb⟩ hp q hq
    rw [List.mem_singleton.mp hq]
    have hcr := (hmain.1.1 pa pb).mp hp
    have htrail : TrailRun 0 mask r := (hmain.1.2 r).mp rfl
    obtain ⟨_, _, hblen, _, _, hnext⟩ := hcr
    obtain ⟨_, hrlen, hall, _⟩ := htrail
    simp only [Nat.sub_zero, Nat.zero_add] at hblen hnext hrlen hall
    simp only []
    by_contra hge
    have htrue := hall (pb + 1) (by omega) (by omega)
    simp only [Nat.sub_zero] at htrue
    rw [htrue] at hnext
    simp at hnext

theorem ctsGo_replicate_true (m : Nat) : ∀ (i s : Nat),
    ctsGo [] (some s) i (List.replicate m true) = ([], some s) := by
  induction m with
  | zero =>
    intro i s
    rfl
  | succ k ih =>
    intro i s
    simp only [List.replicate_succ, ctsGo]
    exact ih (i + 1) s

theorem cts_replicate (n : Nat) (hn : 0 < n) :
    contiguous_true_spans (List.replicate n true) = [(0, n - 1)] := by
  obtain ⟨m, rfl⟩ : ∃ m, n = m + 1 := ⟨n - 1, by omega⟩
  unfold contiguous_true_spans
  have hred : ctsGo [] none 0 (List.replicate (m + 1) true) = ([], some 0) := by
    simp only [List.replicate_succ, ctsGo]
    exact ctsGo_replicate_true m 1 0
  rw [hred]
  simp

/-- Claim C2: the span extractor returns exactly the maximal contiguous
true runs as inclusive index spans (membership characterization), in
ascending order, disjoint and separated by at least one false (so no
merging across any false gap); the empty sequence yields no spans, an
all-true sequence yields the single span covering everything, a run
reaching the final index is closed at the last index, and the
documented example holds. -/
theorem span_extractor_spec :
    (∀ (mask : List Bool) (a b : Nat),
      (a, b) ∈ contiguous_true_spans mask ↔ IsRun mask a b) ∧
    (∀ mask : List Bool,
      List.Pairwise (fun p q : Nat × Nat => p.2 + 1 < q.1) (contiguous_true_spans mask)) ∧
    contiguous_true_spans [] = [] ∧
    (∀ n : Nat, 0 < n → contiguous_true_spans (List.replicate n true) = [(0, n - 1)]) ∧
    contiguous_true_spans [false, true, true, false, true] = [(1, 2), (4, 4)] :=
  ⟨cts_mem_iff, cts_pairwise, rfl, cts_replicate, by decide⟩

/-- Witness for claim C2 instantiating the all-true conjunct at length 3. -/
theorem span_extractor_spec_witness :
    contiguous_true_spans (List.replicate 3 true) = [(0, 3 - 1)] :=
  span_extractor_spec.2.2.2.1 3 (by norm_num)
